import Mathlib

/-!
Shallow embedding of the `target-encoding-rs` streaming transcoders.

The repository provides two component families:
* `src/windows.rs`: `ByteDecoder` (codepage bytes → chars) and `ByteEncoder`
  (chars → codepage bytes), both driving the OS conversion capability
  (`MultiByteToWideChar` / `WideCharToMultiByte` / `IsDBCSLeadByteEx`);
* `src/not_windows.rs`: `Utf8Encoder`, a pure UTF-8 re-expression.

The OS conversion capability is external to the repository, so it is a
parameter of the embedded functions:
* `conv cp run` returns the list of UTF-16 units written by
  `MultiByteToWideChar(cp, MB_ERR_INVALID_CHARS, run, ...)`; the Rust code
  branches on the returned count, which here is the list length (the `_`
  arm of the Rust `match` covers count 0 and any count outside 1..=3);
* `isLead cp b` models `IsDBCSLeadByteEx(cp, b) != 0`;
* for the encoder, `conv cp units` returns the bytes written by
  `WideCharToMultiByte(cp, 0, units, ...)`.

Bytes, UTF-16 units and scalar values are `Nat` with explicit wrap-around
(`% 2 ^ 16`) where the Rust u16 arithmetic can wrap. Iterators are `List Nat`
(the remaining upstream items); `Iterator::next` is list head removal.
-/

namespace TargetEncoding

/-- The `std::io::ErrorKind` values the decoder produces: `InvalidData`,
`InvalidInput`, `Other` ("Single character is longer than 8 bytes!"), and
the unspecified kind of `Error::last_os_error()`. -/
inductive ErrKind where
  | invalidData
  | invalidInput
  | other
  | osError
deriving DecidableEq, Repr

/-- One yielded item of the decoder: `Result<char>`. The scalar value is a
`Nat`; `char::from_u32_unchecked` is modelled as the identity (its
precondition is the subject of the safety claim). -/
inductive DecItem where
  | ok (c : Nat)
  | err (k : ErrKind)
deriving DecidableEq, Repr

/-- State of `ByteDecoder` (src/windows.rs): the remaining upstream bytes,
the codepage, the one-byte pushback slot `buf`, and the
`UnicodeDefaultChar` captured at construction. -/
structure ByteDecoder where
  iter : List Nat
  codepage : Nat
  buf : Option Nat
  default_character : Nat
deriving DecidableEq, Repr

/-- `ByteDecoder::new`: the default character comes from
`GetCPInfoExA(codepage).UnicodeDefaultChar`, an external query, so it is an
argument here. -/
def ByteDecoder.new (bytes : List Nat) (cp dc : Nat) : ByteDecoder :=
  { iter := bytes, codepage := cp, buf := none, default_character := dc }

/-- The surrogate-pair combination in the `2`-unit arm of
`ByteDecoder::next`:
`(((char_buf[0] - 0xD800) as u32) << 10 | (char_buf[1] - 0xDC00) as u32) + 0x10000`.
The subtractions are Rust `u16` subtractions, hence the explicit
wrap-around modulo `2 ^ 16`. -/
def combineSurrogates (u0 u1 : Nat) : Nat :=
  (((u0 + 2 ^ 16 - 0xD800) % 2 ^ 16) <<< 10 ||| ((u1 + 2 ^ 16 - 0xDC00) % 2 ^ 16)) + 0x10000

/-- Outcome of one conversion attempt inside the decode loop: either an
item to yield together with the pushback byte to store, or "pull one more
byte and retry". -/
inductive StepOut where
  | yield (it : DecItem) (pb : Option Nat)
  | again
deriving DecidableEq, Repr

/-- One conversion attempt of `ByteDecoder::next` on the accumulated byte
run `run` (`byte_buf[0..byte_count]`). The arms mirror the Rust
`match char_count`: count 1 yields the unit; count 2 splits on the
surrogate-range test of the first unit, pushing back the last consumed
byte (`byte_buf[byte_count - 1]`, i.e. `run.getLast?`) in the
non-surrogate case; count 3 is the unpaired-surrogate error (also with
pushback); any other count (`0`, i.e. failure or insufficient input)
checks `IsDBCSLeadByteEx` on `byte_buf[0]` and either surfaces the OS
error or asks the loop to retry with one more byte. -/
def decodeStep (conv : Nat → List Nat → List Nat) (isLead : Nat → Nat → Bool)
    (cp dc : Nat) (run : List Nat) : StepOut :=
  match conv cp run with
  | [u0] => .yield (.ok u0) none
  | [u0, u1] =>
    if u0 < 0xD800 ∨ 0xDFFF < u0 then
      if u0 = dc then .yield (.err .invalidData) run.getLast?
      else .yield (.ok u0) run.getLast?
    else .yield (.ok (combineSurrogates u0 u1)) none
  | [_, _, _] => .yield (.err .invalidInput) run.getLast?
  | _ =>
    if isLead cp (run.headD 0) then .again
    else .yield (.err .osError) none

/-- The `for byte_count in 1..=byte_buf.len()` loop of `ByteDecoder::next`.
`run` is the accumulated byte run (converted now); `iter` is the remaining
upstream; `fuel` is the number of loop iterations still allowed after this
one (initially 7, since `byte_buf` has 8 slots and the first byte is
already in `run`). The result is the yielded item, the pushback byte
stored into `self.buf`, and the remaining upstream bytes. A retry with no
fuel left corresponds to the Rust loop running off the end of `byte_buf`
(the `ErrorKind::Other` "Single character is longer than 8 bytes!"
error); a retry with exhausted upstream is the truncated-sequence
`ErrorKind::InvalidData` error. -/
def decodeLoop (conv : Nat → List Nat → List Nat) (isLead : Nat → Nat → Bool)
    (cp dc : Nat) : Nat → List Nat → List Nat → DecItem × Option Nat × List Nat
  | 0, run, iter =>
    match decodeStep conv isLead cp dc run with
    | .yield it pb => (it, pb, iter)
    | .again => (.err .other, none, iter)
  | fuel + 1, run, iter =>
    match decodeStep conv isLead cp dc run with
    | .yield it pb => (it, pb, iter)
    | .again =>
      match iter with
      | [] => (.err .invalidData, none, [])
      | b :: iter2 => decodeLoop conv isLead cp dc fuel (run ++ [b]) iter2

/-- Whenever a conversion attempt resolves, the loop returns its item and
pushback unchanged, whatever the remaining fuel. -/
theorem decodeLoop_of_yield {conv : Nat → List Nat → List Nat} {isLead : Nat → Nat → Bool}
    {cp dc : Nat} {run : List Nat} {it : DecItem} {pb : Option Nat}
    (h : decodeStep conv isLead cp dc run = .yield it pb) :
    ∀ fuel iter, decodeLoop conv isLead cp dc fuel run iter = (it, pb, iter) := by
  intro fuel iter
  cases fuel <;> simp [decodeLoop, h]

/-- `ByteDecoder::next`: the first byte of the run is the pushback byte if
the slot is occupied (`self.buf.take()`), otherwise the next upstream byte
(`self.iter.next()?`, `none` ends the stream); then the conversion loop
runs with the 7 remaining `byte_buf` slots as fuel, and its pushback and
leftover upstream become the new state. -/
def ByteDecoder.next (conv : Nat → List Nat → List Nat) (isLead : Nat → Nat → Bool)
    (st : ByteDecoder) : Option (DecItem × ByteDecoder) :=
  match st.buf, st.iter with
  | some b, _ =>
    let r := decodeLoop conv isLead st.codepage st.default_character 7 [b] st.iter
    some (r.1, { st with buf := r.2.1, iter := r.2.2 })
  | none, [] => none
  | none, b :: rest =>
    let r := decodeLoop conv isLead st.codepage st.default_character 7 [b] rest
    some (r.1, { st with buf := r.2.1, iter := r.2.2 })

example :
    ByteDecoder.next (fun _ run => if run = [65] then [65] else []) (fun _ _ => false)
      (ByteDecoder.new [65, 66] 0 0xFFFD) =
      some (.ok 65, { iter := [66], codepage := 0, buf := none, default_character := 0xFFFD }) := by
  decide

/-- State of `ByteEncoder` (src/windows.rs): remaining upstream chars (as
scalar values), codepage, and the 4-byte output buffer with its cursor
(`buffer_index`) and count of valid bytes (`buffer_size`). The buffer is a
list that the code keeps at length 4. -/
structure ByteEncoder where
  iter : List Nat
  codepage : Nat
  buffer_index : Nat
  buffer_size : Nat
  buffer : List Nat
deriving DecidableEq, Repr

/-- `ByteEncoder::new`. -/
def ByteEncoder.new (chars : List Nat) (cp : Nat) : ByteEncoder :=
  { iter := chars, codepage := cp, buffer := [0, 0, 0, 0], buffer_index := 0, buffer_size := 0 }

/-- Outcome of one `ByteEncoder::next` call: a yielded byte with the
successor state, end of stream (`None`), or the `panic!` on a zero-byte
conversion result. -/
inductive EncStep where
  | yield (b : Nat) (st : ByteEncoder)
  | done
  | fatal
deriving DecidableEq, Repr

/-- `char::encode_utf16` (Rust std): one unit below `0x10000`, otherwise a
surrogate pair. -/
def utf16Units (c : Nat) : List Nat :=
  if c < 0x10000 then [c]
  else [0xD800 + ((c - 0x10000) >>> 10), 0xDC00 + ((c - 0x10000) &&& 0x3FF)]

/-- `ByteEncoder::next`: drain the buffer if `buffer_size != 0` (emit
`buffer[buffer_index]`, advance the cursor, clear the size once the cursor
reaches it); otherwise pull a char, convert its UTF-16 form through the
capability into the buffer (`WideCharToMultiByte` overwrites the first
`len` slots and leaves the rest), and branch on the byte count: 0 panics,
1 emits immediately with the size reset to 0, more buffers with the cursor
set to 1 after emitting the first byte. -/
def ByteEncoder.next (conv : Nat → List Nat → List Nat) (st : ByteEncoder) : EncStep :=
  if st.buffer_size ≠ 0 then
    let byte := st.buffer.getD st.buffer_index 0
    let i := st.buffer_index + 1
    .yield byte
      { st with buffer_index := i, buffer_size := if st.buffer_size ≤ i then 0 else st.buffer_size }
  else
    match st.iter with
    | [] => .done
    | c :: rest =>
      let bytes := conv st.codepage (utf16Units c)
      let buf2 := bytes ++ st.buffer.drop bytes.length
      match bytes.length with
      | 0 => .fatal
      | 1 => .yield (buf2.getD 0 0) { st with iter := rest, buffer := buf2, buffer_size := 0 }
      | n + 2 =>
        .yield (buf2.getD 0 0)
          { st with iter := rest, buffer := buf2, buffer_size := n + 2, buffer_index := 1 }

/-- State of `Utf8Encoder` (src/not_windows.rs): same buffer discipline as
`ByteEncoder`, no codepage. -/
structure Utf8Encoder where
  iter : List Nat
  buffer_index : Nat
  buffer_size : Nat
  buffer : List Nat
deriving DecidableEq, Repr

/-- `Utf8Encoder::new`. -/
def Utf8Encoder.new (chars : List Nat) : Utf8Encoder :=
  { iter := chars, buffer_index := 0, buffer_size := 0, buffer := [0, 0, 0, 0] }

/-- `char::encode_utf8` (Rust std): the canonical 1–4 byte UTF-8 form of a
scalar value, by code point range. -/
def utf8Bytes (c : Nat) : List Nat :=
  if c < 0x80 then [c]
  else if c < 0x800 then
    [0xC0 ||| (c >>> 6), 0x80 ||| (c &&& 0x3F)]
  else if c < 0x10000 then
    [0xE0 ||| (c >>> 12), 0x80 ||| ((c >>> 6) &&& 0x3F), 0x80 ||| (c &&& 0x3F)]
  else
    [0xF0 ||| (c >>> 18), 0x80 ||| ((c >>> 12) &&& 0x3F), 0x80 ||| ((c >>> 6) &&& 0x3F),
      0x80 ||| (c &&& 0x3F)]

/-- `Utf8Encoder::next`: drain the buffer if `buffer_size != 0`; otherwise
pull a char, write its UTF-8 bytes into the buffer
(`char::encode_utf8(&mut self.buffer)`), set size and cursor only when the
encoding is longer than one byte, and emit `buffer[0]`. -/
def Utf8Encoder.next (st : Utf8Encoder) : Option (Nat × Utf8Encoder) :=
  if st.buffer_size ≠ 0 then
    let byte := st.buffer.getD st.buffer_index 0
    let i := st.buffer_index + 1
    some (byte,
      { st with buffer_index := i, buffer_size := if st.buffer_size ≤ i then 0 else st.buffer_size })
  else
    match st.iter with
    | [] => none
    | c :: rest =>
      let bytes := utf8Bytes c
      let buf2 := bytes ++ st.buffer.drop bytes.length
      if bytes.length ≠ 1 then
        some (buf2.getD 0 0,
          { st with iter := rest, buffer := buf2, buffer_size := bytes.length, buffer_index := 1 })
      else
        some (buf2.getD 0 0, { st with iter := rest, buffer := buf2 })

/-- Repeatedly call `Utf8Encoder::next` and collect the yielded bytes,
with an explicit fuel bound (the encoder emits at most 4 bytes per
upstream char, so `4 * chars + 1` fuel drains any stream started from
`Utf8Encoder.new`). -/
def Utf8Encoder.collect : Nat → Utf8Encoder → List Nat
  | 0, _ => []
  | n + 1, st =>
    match Utf8Encoder.next st with
    | none => []
    | some (b, st2) => b :: Utf8Encoder.collect n st2

example : Utf8Encoder.collect 5 (Utf8Encoder.new [0x6708]) = [0xE6, 0x9C, 0x88] := by decide

example : Utf8Encoder.collect 9 (Utf8Encoder.new [0x54, 0x6708, 0x24]) =
    [0x54, 0xE6, 0x9C, 0x88, 0x24] := by decide

example :
    ByteEncoder.next (fun _ _ => []) (ByteEncoder.new [65] 932) = .fatal := by decide

/-- The number of bytes held in the pushback slot. -/
def pendingCount : Option Nat → Nat
  | none => 0
  | some _ => 1

/-- Hypothesis on the conversion capability: a single-byte run never
produces more than one UTF-16 unit. -/
def SingleByteSingleUnit (conv : Nat → List Nat → List Nat) (cp : Nat) : Prop :=
  ∀ b, (conv cp [b]).length ≤ 1

/-- Hypothesis on the conversion capability: it only writes well-formed
UTF-16 — a one-unit result is a non-surrogate code unit, and a two-unit
result consists of `u16` values whose first unit, if it lies in the
surrogate range, is a leading surrogate followed by a trailing
surrogate. -/
def WellFormedUtf16 (conv : Nat → List Nat → List Nat) (cp : Nat) : Prop :=
  (∀ run u, conv cp run = [u] → u < 0x10000 ∧ (u < 0xD800 ∨ 0xDFFF < u)) ∧
  (∀ run u v, conv cp run = [u, v] →
    u < 0x10000 ∧ v < 0x10000 ∧
      (¬(u < 0xD800 ∨ 0xDFFF < u) → u ≤ 0xDBFF ∧ 0xDC00 ≤ v ∧ v ≤ 0xDFFF))

/-- Buffer invariant of `ByteEncoder`: the buffer stays at its physical
length 4, the count of valid bytes never exceeds 4, and while bytes remain
to drain the cursor is strictly below the count (so `buffer[buffer_index]`
is in bounds). -/
def ByteEncoderInv (st : ByteEncoder) : Prop :=
  st.buffer.length = 4 ∧ st.buffer_size ≤ 4 ∧
    (st.buffer_size ≠ 0 → st.buffer_index < st.buffer_size)

/-- Buffer invariant of `Utf8Encoder`, identical to `ByteEncoderInv`. -/
def Utf8EncoderInv (st : Utf8Encoder) : Prop :=
  st.buffer.length = 4 ∧ st.buffer_size ≤ 4 ∧
    (st.buffer_size ≠ 0 → st.buffer_index < st.buffer_size)

/-- C1: when the capability returns exactly two UTF-16 units whose first
unit is outside the surrogate range, the conversion loop pushes the last
consumed byte of the run back and yields an invalid-data error if that
unit equals the captured default character, the unit itself otherwise; at
the `ByteDecoder.next` level the pushed-back byte lands in the one-byte
slot `buf`. -/
theorem decoder_two_units_nonsurrogate_pushback
    (conv : Nat → List Nat → List Nat) (isLead : Nat → Nat → Bool)
    (cp dc u0 u1 : Nat) (hns : u0 < 0xD800 ∨ 0xDFFF < u0) :
    (∀ fuel run iter, conv cp run = [u0, u1] →
      decodeLoop conv isLead cp dc fuel run iter =
        ((if u0 = dc then .err .invalidData else .ok u0), run.getLast?, iter)) ∧
    (∀ (st : ByteDecoder) b, st.codepage = cp → st.default_character = dc →
      st.buf = some b → conv cp [b] = [u0, u1] →
      ByteDecoder.next conv isLead st =
        some ((if u0 = dc then .err .invalidData else .ok u0), { st with buf := some b })) := by
  have hstep : ∀ run, conv cp run = [u0, u1] →
      decodeStep conv isLead cp dc run =
        .yield (if u0 = dc then DecItem.err .invalidData else DecItem.ok u0) run.getLast? := by
    intro run hconv
    rw [decodeStep, hconv]
    simp only [if_pos hns]
    split <;> rfl
  have hloop : ∀ fuel run iter, conv cp run = [u0, u1] →
      decodeLoop conv isLead cp dc fuel run iter =
        ((if u0 = dc then DecItem.err .invalidData else DecItem.ok u0), run.getLast?, iter) := by
    intro fuel run iter hconv
    exact decodeLoop_of_yield (hstep run hconv) fuel iter
  refine ⟨hloop, ?_⟩
  intro st b hcp hdc hbuf hconv
  obtain ⟨it, cpg, bf, dcf⟩ := st
  simp only at hcp hdc hbuf
  subst hcp hdc hbuf
  simp only [ByteDecoder.next, hloop 7 [b] it hconv, List.getLast?_singleton]

/-- C1 witness: a concrete capability mapping the byte 5 to two
non-surrogate units, first unit distinct from the default character. -/
theorem decoder_two_units_nonsurrogate_pushback_witness :
    ByteDecoder.next (fun _ run => if run = [5] then [0x41, 0x42] else []) (fun _ _ => false)
      { iter := [9], codepage := 0, buf := some 5, default_character := 0xFFFD } =
      some (.ok 0x41, { iter := [9], codepage := 0, buf := some 5, default_character := 0xFFFD }) := by
  have h := (decoder_two_units_nonsurrogate_pushback
    (fun _ run => if run = [5] then [0x41, 0x42] else []) (fun _ _ => false)
    0 0xFFFD 0x41 0x42 (by decide)).2
    { iter := [9], codepage := 0, buf := some 5, default_character := 0xFFFD } 5
    rfl rfl rfl (by decide)
  simpa using h

/-- C2: when the capability returns two units whose first unit is a
leading surrogate, the conversion loop yields the combined scalar value
and pushes nothing back; the combination equals
`((lead - 0xD800) <<< 10 ||| (trail - 0xDC00)) + 0x10000` whenever the
second unit is at least `0xDC00`; and at the `ByteDecoder.next` level the
pushback slot is left empty. -/
theorem decoder_surrogate_pair_combined
    (conv : Nat → List Nat → List Nat) (isLead : Nat → Nat → Bool)
    (cp dc u0 u1 : Nat) (h0 : 0xD800 ≤ u0) (h0b : u0 ≤ 0xDBFF) (h1 : u1 < 0x10000) :
    (∀ fuel run iter, conv cp run = [u0, u1] →
      decodeLoop conv isLead cp dc fuel run iter = (.ok (combineSurrogates u0 u1), none, iter)) ∧
    (0xDC00 ≤ u1 →
      combineSurrogates u0 u1 = (((u0 - 0xD800) <<< 10) ||| (u1 - 0xDC00)) + 0x10000) ∧
    (∀ (st : ByteDecoder) b, st.codepage = cp → st.buf = some b → conv cp [b] = [u0, u1] →
      ByteDecoder.next conv isLead st =
        some (.ok (combineSurrogates u0 u1), { st with buf := none })) := by
  have hloop : ∀ dc2 fuel run iter, conv cp run = [u0, u1] →
      decodeLoop conv isLead cp dc2 fuel run iter =
        (DecItem.ok (combineSurrogates u0 u1), none, iter) := by
    intro dc2 fuel run iter hconv
    have hsurr : ¬(u0 < 0xD800 ∨ 0xDFFF < u0) := by omega
    have hstep : decodeStep conv isLead cp dc2 run =
        .yield (DecItem.ok (combineSurrogates u0 u1)) none := by
      rw [decodeStep, hconv]
      simp [hsurr]
    exact decodeLoop_of_yield hstep fuel iter
  refine ⟨hloop dc, ?_, ?_⟩
  · intro h1b
    have e0 : (u0 + 2 ^ 16 - 0xD800) % 2 ^ 16 = u0 - 0xD800 := by omega
    have e1 : (u1 + 2 ^ 16 - 0xDC00) % 2 ^ 16 = u1 - 0xDC00 := by omega
    rw [combineSurrogates, e0, e1]
  · intro st b hcp hbuf hconv
    obtain ⟨it, cpg, bf, dcf⟩ := st
    simp only at hcp hbuf
    subst hcp hbuf
    simp only [ByteDecoder.next, hloop dcf 7 [b] it hconv]

/-- C2 witness: the capability maps byte 5 to the surrogate pair
`0xD83D 0xDE00` (U+1F600). -/
theorem decoder_surrogate_pair_combined_witness :
    ByteDecoder.next (fun _ run => if run = [5] then [0xD83D, 0xDE00] else []) (fun _ _ => false)
      { iter := [9], codepage := 0, buf := some 5, default_character := 0xFFFD } =
      some (.ok 0x1F600,
        { iter := [9], codepage := 0, buf := none, default_character := 0xFFFD }) := by
  have h := (decoder_surrogate_pair_combined
    (fun _ run => if run = [5] then [0xD83D, 0xDE00] else []) (fun _ _ => false)
    0 0xFFFD 0xD83D 0xDE00 (by decide) (by decide) (by decide)).2.2
    { iter := [9], codepage := 0, buf := some 5, default_character := 0xFFFD } 5
    rfl rfl (by decide)
  have e : combineSurrogates 0xD83D 0xDE00 = 0x1F600 := by decide
  rw [e] at h
  simpa using h

/-- C5: when the codepage conversion capability produces zero bytes for
the pulled character, `ByteEncoder::next` panics (the `EncStep.fatal`
outcome) — the character is never yielded as an output byte. -/
theorem encoder_zero_bytes_fatal (conv : Nat → List Nat → List Nat)
    (st : ByteEncoder) (c : Nat) (rest : List Nat)
    (hs : st.buffer_size = 0) (hi : st.iter = c :: rest)
    (hconv : conv st.codepage (utf16Units c) = []) :
    ByteEncoder.next conv st = .fatal := by
  rw [ByteEncoder.next]
  simp [hs, hi, hconv]

/-- C5 witness: a capability that produces no bytes at all. -/
theorem encoder_zero_bytes_fatal_witness :
    ByteEncoder.next (fun _ _ => []) (ByteEncoder.new [0x41] 932) = .fatal :=
  encoder_zero_bytes_fatal (fun _ _ => []) (ByteEncoder.new [0x41] 932) 0x41 [] rfl rfl rfl

/-- C6: the pushback slot is an `Option`, so it holds at most one byte by
construction; and a `ByteDecoder.next` call on a state whose slot holds
`b` behaves exactly like a call on the state with an empty slot and `b`
prepended to the upstream bytes — the pending byte is consumed as the
first byte of the new run before the upstream source is polled. -/
theorem decoder_pushback_consumed_first (conv : Nat → List Nat → List Nat)
    (isLead : Nat → Nat → Bool) (st : ByteDecoder) (b : Nat) (h : st.buf = some b) :
    ByteDecoder.next conv isLead st =
      ByteDecoder.next conv isLead { st with buf := none, iter := b :: st.iter } := by
  obtain ⟨it, cpg, bf, dcf⟩ := st
  simp only at h
  subst h
  rfl

/-- C6 witness: concrete state with an occupied slot. -/
theorem decoder_pushback_consumed_first_witness :
    ByteDecoder.next (fun _ _ => [0x41]) (fun _ _ => false)
      { iter := [7], codepage := 0, buf := some 5, default_character := 0 } =
      ByteDecoder.next (fun _ _ => [0x41]) (fun _ _ => false)
        { iter := 5 :: [7], codepage := 0, buf := none, default_character := 0 } :=
  decoder_pushback_consumed_first (fun _ _ => [0x41]) (fun _ _ => false)
    { iter := [7], codepage := 0, buf := some 5, default_character := 0 } 5 rfl

/-- C7: while the buffer cursor is strictly before the count of buffered
bytes, one `next` call on either encoder emits the byte at the cursor and
leaves the upstream character source untouched. -/
theorem encoder_drains_before_polling :
    (∀ (conv : Nat → List Nat → List Nat) (st : ByteEncoder),
      st.buffer_index < st.buffer_size →
      ∃ st2, ByteEncoder.next conv st = .yield (st.buffer.getD st.buffer_index 0) st2 ∧
        st2.iter = st.iter ∧ st2.buffer = st.buffer) ∧
    (∀ st : Utf8Encoder,
      st.buffer_index < st.buffer_size →
      ∃ st2, Utf8Encoder.next st = some (st.buffer.getD st.buffer_index 0, st2) ∧
        st2.iter = st.iter ∧ st2.buffer = st.buffer) := by
  constructor
  · intro conv st h
    have hs : st.buffer_size ≠ 0 := by omega
    refine ⟨{ st with buffer_index := st.buffer_index + 1,
                      buffer_size :=
                        if st.buffer_size ≤ st.buffer_index + 1 then 0 else st.buffer_size },
      ?_, rfl, rfl⟩
    rw [ByteEncoder.next]
    simp [hs]
  · intro st h
    have hs : st.buffer_size ≠ 0 := by omega
    refine ⟨{ st with buffer_index := st.buffer_index + 1,
                      buffer_size :=
                        if st.buffer_size ≤ st.buffer_index + 1 then 0 else st.buffer_size },
      ?_, rfl, rfl⟩
    rw [Utf8Encoder.next]
    simp [hs]

/-- C7 witness: a two-byte buffer with the cursor at 0; the upstream char
source is untouched by the draining call. -/
theorem encoder_drains_before_polling_witness :
    ∃ st2, ByteEncoder.next (fun _ _ => [])
        { iter := [0x41], codepage := 0, buffer_index := 0, buffer_size := 2,
          buffer := [9, 8, 0, 0] } = .yield 9 st2 ∧
      st2.iter = [0x41] ∧ st2.buffer = [9, 8, 0, 0] :=
  encoder_drains_before_polling.1 (fun _ _ => [])
    { iter := [0x41], codepage := 0, buffer_index := 0, buffer_size := 2,
      buffer := [9, 8, 0, 0] } (by decide)

/-- The conversion loop pulls at most `fuel` further bytes from the
upstream source. -/
theorem decodeLoop_iter_length_le (conv : Nat → List Nat → List Nat)
    (isLead : Nat → Nat → Bool) (cp dc : Nat) :
    ∀ fuel run iter,
      iter.length ≤ ((decodeLoop conv isLead cp dc fuel run iter).2.2).length + fuel := by
  intro fuel
  induction fuel with
  | zero =>
    intro run iter
    simp only [decodeLoop]
    split <;> simp
  | succ fuel ih =>
    intro run iter
    simp only [decodeLoop]
    split
    · simp
    · cases iter with
      | nil => simp
      | cons b iter2 =>
        have := ih (run ++ [b]) iter2
        simp only [List.length_cons]
        omega

/-- When the capability keeps reporting failure on a run whose first byte
is a recognized lead byte, the loop pulls exactly `fuel` more bytes and
then yields the `ErrorKind::Other` length error with an empty pushback. -/
theorem decodeLoop_never_resolves (conv : Nat → List Nat → List Nat)
    (isLead : Nat → Nat → Bool) (cp dc b0 : Nat)
    (hconv : ∀ run, conv cp run = []) (hlead : isLead cp b0 = true) :
    ∀ fuel run2 iter, fuel ≤ iter.length →
      decodeLoop conv isLead cp dc fuel (b0 :: run2) iter =
        (.err .other, none, iter.drop fuel) := by
  have hstep : ∀ run2, decodeStep conv isLead cp dc (b0 :: run2) = .again := by
    intro run2
    rw [decodeStep, hconv]
    simp [hlead]
  intro fuel
  induction fuel with
  | zero =>
    intro run2 iter _
    simp [decodeLoop, hstep]
  | succ fuel ih =>
    intro run2 iter hlen
    cases iter with
    | nil => simp at hlen
    | cons b iter2 =>
      simp only [decodeLoop, hstep]
      have he : (b0 :: run2) ++ [b] = b0 :: (run2 ++ [b]) := rfl
      rw [he, ih (run2 ++ [b]) iter2 (by simpa using hlen)]
      simp

/-- C4: `decode-next` accumulates at most 8 bytes — any call consumes at
most 8 bytes of input — and when the capability keeps reporting
insufficient input on a recognized lead byte, the call consumes exactly 8
bytes (the first byte plus 7 more) and yields the single fatal
`ErrorKind::Other` "Single character is longer than 8 bytes!" error.
Termination is structural: `decodeLoop` recurses on its fuel, which starts
at the 7 remaining `byte_buf` slots. -/
theorem decoder_eight_byte_bound (conv : Nat → List Nat → List Nat)
    (isLead : Nat → Nat → Bool) (cp dc b0 : Nat) (rest : List Nat)
    (hconv : ∀ run, conv cp run = []) (hlead : isLead cp b0 = true)
    (hlen : 7 ≤ rest.length) :
    ByteDecoder.next conv isLead
        { iter := b0 :: rest, codepage := cp, buf := none, default_character := dc } =
      some (.err .other,
        { iter := rest.drop 7, codepage := cp, buf := none, default_character := dc }) ∧
    (∀ (conv2 : Nat → List Nat → List Nat) (isLead2 : Nat → Nat → Bool)
        (st st2 : ByteDecoder) (it : DecItem),
      ByteDecoder.next conv2 isLead2 st = some (it, st2) →
      st.iter.length ≤ st2.iter.length + 8) := by
  constructor
  · simp only [ByteDecoder.next]
    rw [decodeLoop_never_resolves conv isLead cp dc b0 hconv hlead 7 [] rest hlen]
  · intro conv2 isLead2 st st2 it h
    obtain ⟨iter, cpg, bf, dcf⟩ := st
    cases bf with
    | some b =>
      rw [ByteDecoder.next] at h
      simp only [Option.some.injEq, Prod.mk.injEq] at h
      obtain ⟨-, h2⟩ := h
      have hb := decodeLoop_iter_length_le conv2 isLead2 cpg dcf 7 [b] iter
      subst h2
      dsimp only
      omega
    | none =>
      cases iter with
      | nil => simp [ByteDecoder.next] at h
      | cons b iter2 =>
        rw [ByteDecoder.next] at h
        simp only [Option.some.injEq, Prod.mk.injEq] at h
        obtain ⟨-, h2⟩ := h
        have hb := decodeLoop_iter_length_le conv2 isLead2 cpg dcf 7 [b] iter2
        subst h2
        dsimp only [List.length_cons]
        omega

/-- C4 witness: a capability that always fails on a stream of 8 zero
bytes, with byte 0 recognized as a lead byte. -/
theorem decoder_eight_byte_bound_witness :
    ByteDecoder.next (fun _ _ => []) (fun _ _ => true)
        { iter := 0 :: [0, 0, 0, 0, 0, 0, 0], codepage := 932, buf := none,
          default_character := 0xFFFD } =
      some (.err .other,
        { iter := List.drop 7 [0, 0, 0, 0, 0, 0, 0], codepage := 932, buf := none,
          default_character := 0xFFFD }) :=
  (decoder_eight_byte_bound (fun _ _ => []) (fun _ _ => true) 932 0xFFFD 0
    [0, 0, 0, 0, 0, 0, 0] (fun _ => rfl) rfl (by decide)).1

/-- An empty pushback slot holds no byte. -/
theorem pendingCount_none : pendingCount none = 0 := rfl

/-- A full pushback slot holds one byte. -/
theorem pendingCount_some (b : Nat) : pendingCount (some b) = 1 := rfl

/-- An occupied pushback slot counts as one held byte. -/
theorem pendingCount_of_isSome (o : Option Nat) (h : o.isSome) : pendingCount o = 1 := by
  cases o with
  | none => simp at h
  | some b => rfl

/-- Case analysis of one conversion attempt when single-byte runs never
produce more than one unit: the attempt either asks for another byte,
yields with an empty pushback, or yields with the last run byte pushed
back — and in the latter case the run has at least two bytes. -/
theorem decodeStep_cases (conv : Nat → List Nat → List Nat) (isLead : Nat → Nat → Bool)
    (cp dc : Nat) (hconv : SingleByteSingleUnit conv cp) :
    ∀ run, 1 ≤ run.length →
      decodeStep conv isLead cp dc run = .again ∨
      (∃ it, decodeStep conv isLead cp dc run = .yield it none) ∨
      (∃ it, decodeStep conv isLead cp dc run = .yield it run.getLast? ∧ 2 ≤ run.length) := by
  intro run hrun
  have hlen2 : ∀ u rest2, conv cp run = u :: rest2 → rest2 ≠ [] → 2 ≤ run.length := by
    intro u rest2 hc hne
    by_contra hlt
    obtain ⟨b, rfl⟩ : ∃ b, run = [b] := by
      cases run with
      | nil => simp at hrun
      | cons a t =>
        cases t with
        | nil => exact ⟨a, rfl⟩
        | cons c t2 => simp at hlt
    have := hconv b
    rw [hc] at this
    cases rest2 with
    | nil => exact hne rfl
    | cons v t => simp at this
  rcases hc : conv cp run with _ | ⟨u0, _ | ⟨u1, _ | ⟨u2, _ | ⟨u3, tl⟩⟩⟩⟩
  · by_cases hl : isLead cp (run.headD 0)
    · refine Or.inl ?_
      simp only [List.headD_eq_head?] at hl
      simp [decodeStep, hc, hl]
    · refine Or.inr (Or.inl ⟨.err .osError, ?_⟩)
      simp only [List.headD_eq_head?] at hl
      simp [decodeStep, hc, hl]
  · refine Or.inr (Or.inl ⟨.ok u0, ?_⟩)
    simp [decodeStep, hc]
  · have h2 : 2 ≤ run.length := hlen2 u0 [u1] hc (by simp)
    by_cases hns : u0 < 0xD800 ∨ 0xDFFF < u0
    · by_cases hdc : u0 = dc
      · subst hdc
        refine Or.inr (Or.inr ⟨.err .invalidData, ?_, h2⟩)
        simp [decodeStep, hc, hns]
      · refine Or.inr (Or.inr ⟨.ok u0, ?_, h2⟩)
        simp [decodeStep, hc, hns, hdc]
    · refine Or.inr (Or.inl ⟨.ok (combineSurrogates u0 u1), ?_⟩)
      simp [decodeStep, hc, hns]
  · refine Or.inr (Or.inr ⟨.err .invalidInput, ?_, hlen2 u0 [u1, u2] hc (by simp)⟩)
    simp [decodeStep, hc]
  · by_cases hl : isLead cp (run.headD 0)
    · refine Or.inl ?_
      simp only [List.headD_eq_head?] at hl
      simp [decodeStep, hc, hl]
    · refine Or.inr (Or.inl ⟨.err .osError, ?_⟩)
      simp only [List.headD_eq_head?] at hl
      simp [decodeStep, hc, hl]

/-- Under `SingleByteSingleUnit`, each run of the conversion loop hands
back strictly fewer held bytes (leftover upstream plus pushback) than it
received (upstream plus the current run). -/
theorem decodeLoop_measure (conv : Nat → List Nat → List Nat) (isLead : Nat → Nat → Bool)
    (cp dc : Nat) (hconv : SingleByteSingleUnit conv cp) :
    ∀ fuel run iter, 1 ≤ run.length →
      ((decodeLoop conv isLead cp dc fuel run iter).2.2).length +
          pendingCount (decodeLoop conv isLead cp dc fuel run iter).2.1 + 1 ≤
        iter.length + run.length := by
  intro fuel
  induction fuel with
  | zero =>
    intro run iter h1
    rcases decodeStep_cases conv isLead cp dc hconv run h1 with hs | ⟨it, hs⟩ | ⟨it, hs, h2⟩
    · simp only [decodeLoop, hs, pendingCount_none]
      omega
    · simp only [decodeLoop, hs, pendingCount_none]
      omega
    · have hne : run ≠ [] := List.length_pos.mp (by omega)
      have hpc := pendingCount_of_isSome run.getLast? (List.getLast?_isSome.mpr hne)
      simp only [decodeLoop, hs]
      omega
  | succ fuel ih =>
    intro run iter h1
    rcases decodeStep_cases conv isLead cp dc hconv run h1 with hs | ⟨it, hs⟩ | ⟨it, hs, h2⟩
    · simp only [decodeLoop, hs]
      cases iter with
      | nil =>
        simp only [pendingCount_none, List.length_nil]
        omega
      | cons b iter2 =>
        have hih := ih (run ++ [b]) iter2 (by simp)
        simp only [List.length_append, List.length_cons, List.length_nil] at hih ⊢
        omega
    · simp only [decodeLoop, hs, pendingCount_none]
      omega
    · have hne : run ≠ [] := List.length_pos.mp (by omega)
      have hpc := pendingCount_of_isSome run.getLast? (List.getLast?_isSome.mpr hne)
      simp only [decodeLoop, hs]
      omega

/-- C3 counterexample: a capability that turns the single byte 5 into two
units equal to the default character makes `ByteDecoder.next` yield the
invalid-data error and return to exactly the state it started from — the
offending byte stays in the pushback slot, no input is consumed net, and
every further call re-yields the same error over the same byte forever. -/
theorem decoder_error_no_consumption_counterexample :
    ByteDecoder.next (fun _ run => if run = [5] then [0xFFFD, 0xFFFD] else []) (fun _ _ => false)
      { iter := [], codepage := 0, buf := some 5, default_character := 0xFFFD } =
      some (.err .invalidData,
        { iter := [], codepage := 0, buf := some 5, default_character := 0xFFFD }) := by
  decide

/-- C3 as amended: when the conversion capability never produces more
than one UTF-16 unit from a single-byte run, every `decode-next` call
that yields an item (error or character) strictly decreases the total
input still held (remaining upstream bytes plus the pushback slot), i.e.
consumes at least one byte net, so no error can be re-yielded over the
same bytes forever. -/
theorem decoder_item_consumes_input (conv : Nat → List Nat → List Nat)
    (isLead : Nat → Nat → Bool) (st st2 : ByteDecoder) (it : DecItem)
    (hconv : SingleByteSingleUnit conv st.codepage)
    (h : ByteDecoder.next conv isLead st = some (it, st2)) :
    st2.iter.length + pendingCount st2.buf < st.iter.length + pendingCount st.buf := by
  obtain ⟨iter, cpg, bf, dcf⟩ := st
  cases bf with
  | some b =>
    rw [ByteDecoder.next] at h
    simp only [Option.some.injEq, Prod.mk.injEq] at h
    obtain ⟨-, h2⟩ := h
    have hm := decodeLoop_measure conv isLead cpg dcf hconv 7 [b] iter (by simp)
    subst h2
    dsimp only
    simp only [pendingCount_some]
    simp only [List.length_singleton] at hm
    omega
  | none =>
    cases iter with
    | nil => simp [ByteDecoder.next] at h
    | cons b iter2 =>
      rw [ByteDecoder.next] at h
      simp only [Option.some.injEq, Prod.mk.injEq] at h
      obtain ⟨-, h2⟩ := h
      have hm := decodeLoop_measure conv isLead cpg dcf hconv 7 [b] iter2 (by simp)
      subst h2
      dsimp only
      simp only [pendingCount_none, List.length_cons]
      simp only [List.length_singleton] at hm
      omega

/-- C3 amended witness: a one-unit-per-byte capability decoding one byte
consumes it. -/
theorem decoder_item_consumes_input_witness :
    (ByteDecoder.new [] 0 0).iter.length + pendingCount (ByteDecoder.new [] 0 0).buf <
      (ByteDecoder.new [7] 0 0).iter.length + pendingCount (ByteDecoder.new [7] 0 0).buf :=
  decoder_item_consumes_input (fun _ _ => [65]) (fun _ _ => false)
    (ByteDecoder.new [7] 0 0) (ByteDecoder.new [] 0 0) (.ok 65)
    (fun _ => Nat.le_refl 1) (by decide)

/-- The canonical UTF-8 form of a scalar value has between 1 and 4
bytes. -/
theorem utf8Bytes_length (c : Nat) :
    1 ≤ (utf8Bytes c).length ∧ (utf8Bytes c).length ≤ 4 := by
  rw [utf8Bytes]
  split
  · simp
  · split
    · simp
    · split <;> simp

/-- `ByteEncoder::next` on a nonempty buffer: drain one byte. -/
theorem ByteEncoder_next_drain (conv : Nat → List Nat → List Nat) (it : List Nat)
    (cpg bi bs : Nat) (bb : List Nat) (hs : bs ≠ 0) :
    ByteEncoder.next conv ⟨it, cpg, bi, bs, bb⟩ =
      .yield (bb.getD bi 0) ⟨it, cpg, bi + 1, if bs ≤ bi + 1 then 0 else bs, bb⟩ := by
  rw [ByteEncoder.next]
  simp [hs]

/-- `ByteEncoder::next` with an empty buffer and exhausted upstream. -/
theorem ByteEncoder_next_done (conv : Nat → List Nat → List Nat) (cpg bi : Nat)
    (bb : List Nat) : ByteEncoder.next conv ⟨[], cpg, bi, 0, bb⟩ = .done := by
  rw [ByteEncoder.next]
  simp

/-- `ByteEncoder::next` when the capability writes no bytes: panic. -/
theorem ByteEncoder_next_zero (conv : Nat → List Nat → List Nat) (c : Nat)
    (rest : List Nat) (cpg bi : Nat) (bb : List Nat)
    (hn : (conv cpg (utf16Units c)).length = 0) :
    ByteEncoder.next conv ⟨c :: rest, cpg, bi, 0, bb⟩ = .fatal := by
  rw [ByteEncoder.next]
  simp [hn]

/-- `ByteEncoder::next` when the capability writes one byte: emit it
immediately, buffer cleared. -/
theorem ByteEncoder_next_one (conv : Nat → List Nat → List Nat) (c : Nat)
    (rest : List Nat) (cpg bi : Nat) (bb : List Nat)
    (hn : (conv cpg (utf16Units c)).length = 1) :
    ByteEncoder.next conv ⟨c :: rest, cpg, bi, 0, bb⟩ =
      .yield ((conv cpg (utf16Units c) ++ bb.drop 1).getD 0 0)
        ⟨rest, cpg, bi, 0, conv cpg (utf16Units c) ++ bb.drop 1⟩ := by
  rw [ByteEncoder.next]
  simp [hn]

/-- `ByteEncoder::next` when the capability writes two or more bytes:
emit the first, keep the rest with the cursor at 1. -/
theorem ByteEncoder_next_multi (conv : Nat → List Nat → List Nat) (c : Nat)
    (rest : List Nat) (cpg bi n : Nat) (bb : List Nat)
    (hn : (conv cpg (utf16Units c)).length = n + 2) :
    ByteEncoder.next conv ⟨c :: rest, cpg, bi, 0, bb⟩ =
      .yield ((conv cpg (utf16Units c) ++ bb.drop (n + 2)).getD 0 0)
        ⟨rest, cpg, 1, n + 2, conv cpg (utf16Units c) ++ bb.drop (n + 2)⟩ := by
  rw [ByteEncoder.next]
  simp [hn]

/-- `Utf8Encoder::next` on a nonempty buffer: drain one byte. -/
theorem Utf8Encoder_next_drain (it : List Nat) (bi bs : Nat) (bb : List Nat)
    (hs : bs ≠ 0) :
    Utf8Encoder.next ⟨it, bi, bs, bb⟩ =
      some (bb.getD bi 0, ⟨it, bi + 1, if bs ≤ bi + 1 then 0 else bs, bb⟩) := by
  rw [Utf8Encoder.next]
  simp [hs]

/-- `Utf8Encoder::next` on a one-byte encoding: emit it, size left 0. -/
theorem Utf8Encoder_next_one (c : Nat) (rest : List Nat) (bi : Nat) (bb : List Nat)
    (hn : (utf8Bytes c).length = 1) :
    Utf8Encoder.next ⟨c :: rest, bi, 0, bb⟩ =
      some ((utf8Bytes c ++ bb.drop 1).getD 0 0, ⟨rest, bi, 0, utf8Bytes c ++ bb.drop 1⟩) := by
  rw [Utf8Encoder.next]
  simp [hn]

/-- `Utf8Encoder::next` on a multi-byte encoding: emit the first byte,
keep the rest with the cursor at 1. -/
theorem Utf8Encoder_next_multi (c : Nat) (rest : List Nat) (bi : Nat) (bb : List Nat)
    (hn : (utf8Bytes c).length ≠ 1) :
    Utf8Encoder.next ⟨c :: rest, bi, 0, bb⟩ =
      some ((utf8Bytes c ++ bb.drop (utf8Bytes c).length).getD 0 0,
        ⟨rest, 1, (utf8Bytes c).length, utf8Bytes c ++ bb.drop (utf8Bytes c).length⟩) := by
  rw [Utf8Encoder.next]
  simp [hn]

/-- C10: both encoders preserve the buffer invariant — count at most 4
and, while nonzero, cursor strictly below count — at construction and
across every byte-yielding `next` call (for `ByteEncoder` under the
hypothesis that the capability writes at most 4 bytes), so the buffer
index used while draining is always within the 4-byte buffer. -/
theorem encoder_buffer_invariant :
    (∀ chars cp, ByteEncoderInv (ByteEncoder.new chars cp)) ∧
    (∀ (conv : Nat → List Nat → List Nat) (st st2 : ByteEncoder) (b : Nat),
      ByteEncoderInv st → (∀ units, (conv st.codepage units).length ≤ 4) →
      ByteEncoder.next conv st = .yield b st2 → ByteEncoderInv st2) ∧
    (∀ chars, Utf8EncoderInv (Utf8Encoder.new chars)) ∧
    (∀ (st st2 : Utf8Encoder) (b : Nat),
      Utf8EncoderInv st → Utf8Encoder.next st = some (b, st2) → Utf8EncoderInv st2) := by
  refine ⟨?_, ?_, ?_, ?_⟩
  · intro chars cp
    exact ⟨rfl, Nat.zero_le 4, fun h => absurd rfl h⟩
  · intro conv st st2 b hinv hconv h
    obtain ⟨it, cpg, bi, bs, bb⟩ := st
    obtain ⟨hlen, hsz, hidx⟩ := hinv
    simp only at hlen hsz hidx hconv
    by_cases hs : bs = 0
    · subst hs
      rcases it with _ | ⟨c, rest⟩
      · rw [ByteEncoder_next_done] at h
        simp at h
      · have hb4 := hconv (utf16Units c)
        rcases hn : (conv cpg (utf16Units c)).length with _ | m
        · rw [ByteEncoder_next_zero conv c rest cpg bi bb hn] at h
          simp at h
        · cases m with
          | zero =>
            rw [ByteEncoder_next_one conv c rest cpg bi bb hn] at h
            injection h with h1 h2
            subst h2
            refine ⟨?_, Nat.zero_le 4, fun hne => absurd rfl hne⟩
            simp [hn, hlen]
          | succ n =>
            rw [ByteEncoder_next_multi conv c rest cpg bi n bb hn] at h
            injection h with h1 h2
            subst h2
            refine ⟨?_, ?_, fun _ => ?_⟩
            · simp [hn, hlen]
              omega
            · show n + 2 ≤ 4
              omega
            · show 1 < n + 2
              omega
    · rw [ByteEncoder_next_drain conv it cpg bi bs bb hs] at h
      have hi := hidx hs
      injection h with h1 h2
      subst h2
      refine ⟨hlen, ?_, ?_⟩
      · simp only
        split <;> omega
      · simp only
        split
        · intro hne
          exact absurd rfl hne
        · intro _
          omega
  · intro chars
    exact ⟨rfl, Nat.zero_le 4, fun h => absurd rfl h⟩
  · intro st st2 b hinv h
    obtain ⟨it, bi, bs, bb⟩ := st
    obtain ⟨hlen, hsz, hidx⟩ := hinv
    simp only at hlen hsz hidx
    by_cases hs : bs = 0
    · subst hs
      rcases it with _ | ⟨c, rest⟩
      · rw [Utf8Encoder.next] at h
        simp at h
      · have hb := utf8Bytes_length c
        by_cases h1 : (utf8Bytes c).length = 1
        · rw [Utf8Encoder_next_one c rest bi bb h1] at h
          injection h with h2
          injection h2 with h2a h2b
          subst h2b
          refine ⟨?_, Nat.zero_le 4, fun hne => absurd rfl hne⟩
          simp [h1, hlen]
        · rw [Utf8Encoder_next_multi c rest bi bb h1] at h
          injection h with h2
          injection h2 with h2a h2b
          subst h2b
          refine ⟨?_, ?_, fun _ => ?_⟩
          · simp [hlen]
            omega
          · show (utf8Bytes c).length ≤ 4
            omega
          · show 1 < (utf8Bytes c).length
            omega
    · rw [Utf8Encoder_next_drain it bi bs bb hs] at h
      have hi := hidx hs
      injection h with h2
      injection h2 with h2a h2b
      subst h2b
      refine ⟨hlen, ?_, ?_⟩
      · simp only
        split <;> omega
      · simp only
        split
        · intro hne
          exact absurd rfl hne
        · intro _
          omega

/-- C10 witness: the invariant after one multi-byte encoding step of each
encoder, starting from freshly constructed encoders. -/
theorem encoder_buffer_invariant_witness :
    ByteEncoderInv ⟨[], 932, 1, 2, [0x8C, 0x8E] ++ List.drop 2 [0, 0, 0, 0]⟩ ∧
    Utf8EncoderInv ⟨[], 1, 3, utf8Bytes 0x6708 ++ List.drop (utf8Bytes 0x6708).length [0, 0, 0, 0]⟩ := by
  constructor
  · exact encoder_buffer_invariant.2.1
      (fun _ _ => [0x8C, 0x8E]) (ByteEncoder.new [0x6708] 932)
      ⟨[], 932, 1, 2, [0x8C, 0x8E] ++ List.drop 2 [0, 0, 0, 0]⟩ 0x8C
      ⟨rfl, Nat.zero_le 4, fun h => absurd rfl h⟩ (fun _ => by simp) (by decide)
  · exact encoder_buffer_invariant.2.2.2
      (Utf8Encoder.new [0x6708])
      ⟨[], 1, 3, utf8Bytes 0x6708 ++ List.drop (utf8Bytes 0x6708).length [0, 0, 0, 0]⟩ 0xE6
      ⟨rfl, Nat.zero_le 4, fun h => absurd rfl h⟩ (by decide)

/-- The surrogate combination of a valid leading and trailing surrogate
lands in the supplementary-plane range. -/
theorem combineSurrogates_bounds (u0 u1 : Nat) (h0 : 0xD800 ≤ u0) (h0b : u0 ≤ 0xDBFF)
    (h1 : 0xDC00 ≤ u1) (h1b : u1 ≤ 0xDFFF) :
    0x10000 ≤ combineSurrogates u0 u1 ∧ combineSurrogates u0 u1 < 0x110000 := by
  have e0 : (u0 + 2 ^ 16 - 0xD800) % 2 ^ 16 = u0 - 0xD800 := by omega
  have e1 : (u1 + 2 ^ 16 - 0xDC00) % 2 ^ 16 = u1 - 0xDC00 := by omega
  rw [combineSurrogates, e0, e1]
  have hs : (u0 - 0xD800) <<< 10 < 2 ^ 20 := by
    rw [Nat.shiftLeft_eq]
    have hle : u0 - 0xD800 ≤ 0x3FF := by omega
    calc (u0 - 0xD800) * 2 ^ 10 ≤ 0x3FF * 2 ^ 10 := Nat.mul_le_mul_right _ hle
      _ < 2 ^ 20 := by norm_num
  have ht : u1 - 0xDC00 < 2 ^ 20 := by omega
  have hor := Nat.or_lt_two_pow hs ht
  omega

/-- Under `WellFormedUtf16`, every `ok` item a single conversion attempt
yields is a Unicode scalar value. -/
theorem decodeStep_ok_valid (conv : Nat → List Nat → List Nat) (isLead : Nat → Nat → Bool)
    (cp dc : Nat) (hwf : WellFormedUtf16 conv cp) :
    ∀ run c pb, decodeStep conv isLead cp dc run = .yield (.ok c) pb →
      c < 0x110000 ∧ (c < 0xD800 ∨ 0xDFFF < c) := by
  intro run c pb h
  rcases hc : conv cp run with _ | ⟨u0, _ | ⟨u1, _ | ⟨u2, _ | ⟨u3, tl⟩⟩⟩⟩ <;>
    simp only [decodeStep, hc] at h
  · split at h <;> simp at h
  · simp only [StepOut.yield.injEq, DecItem.ok.injEq] at h
    obtain ⟨rfl, -⟩ := h
    have := hwf.1 run u0 hc
    omega
  · obtain ⟨hu0, hu1, hsurr⟩ := hwf.2 run u0 u1 hc
    by_cases hns : u0 < 0xD800 ∨ 0xDFFF < u0
    · rw [if_pos hns] at h
      by_cases hdc : u0 = dc
      · rw [if_pos hdc] at h
        simp at h
      · rw [if_neg hdc] at h
        simp only [StepOut.yield.injEq, DecItem.ok.injEq] at h
        obtain ⟨rfl, -⟩ := h
        omega
    · rw [if_neg hns] at h
      simp only [StepOut.yield.injEq, DecItem.ok.injEq] at h
      obtain ⟨rfl, -⟩ := h
      obtain ⟨ha, hb, hcc⟩ := hsurr hns
      have := combineSurrogates_bounds u0 u1 (by omega) ha hb hcc
      omega
  · simp at h
  · split at h <;> simp at h

/-- Under `WellFormedUtf16`, every `ok` item of the conversion loop is a
Unicode scalar value. -/
theorem decodeLoop_ok_valid (conv : Nat → List Nat → List Nat) (isLead : Nat → Nat → Bool)
    (cp dc : Nat) (hwf : WellFormedUtf16 conv cp) :
    ∀ fuel run iter c, (decodeLoop conv isLead cp dc fuel run iter).1 = .ok c →
      c < 0x110000 ∧ (c < 0xD800 ∨ 0xDFFF < c) := by
  intro fuel
  induction fuel with
  | zero =>
    intro run iter c h
    rcases hs : decodeStep conv isLead cp dc run with ⟨it, pb⟩ | _
    · simp only [decodeLoop, hs] at h
      have h2 : it = DecItem.ok c := h
      subst h2
      exact decodeStep_ok_valid conv isLead cp dc hwf run c pb hs
    · simp only [decodeLoop, hs] at h
      simp at h
  | succ fuel ih =>
    intro run iter c h
    rcases hs : decodeStep conv isLead cp dc run with ⟨it, pb⟩ | _
    · simp only [decodeLoop, hs] at h
      have h2 : it = DecItem.ok c := h
      subst h2
      exact decodeStep_ok_valid conv isLead cp dc hwf run c pb hs
    · simp only [decodeLoop, hs] at h
      cases iter with
      | nil => simp at h
      | cons b iter2 => exact ih (run ++ [b]) iter2 c h

/-- C9: when the conversion capability only writes well-formed UTF-16 —
a non-surrogate single unit, or valid `u16` pairs whose surrogate-range
first unit is a leading surrogate followed by a trailing surrogate —
every `Ok` item `decode-next` yields is a valid Unicode scalar value
(below `0x110000` and outside the surrogate range), so the precondition
of the `char::from_u32_unchecked` calls holds on every yielded value. -/
theorem decoder_ok_items_are_scalar_values (conv : Nat → List Nat → List Nat)
    (isLead : Nat → Nat → Bool) (st st2 : ByteDecoder) (c : Nat)
    (hwf : WellFormedUtf16 conv st.codepage)
    (h : ByteDecoder.next conv isLead st = some (.ok c, st2)) :
    c < 0x110000 ∧ (c < 0xD800 ∨ 0xDFFF < c) := by
  obtain ⟨iter, cpg, bf, dcf⟩ := st
  cases bf with
  | some b =>
    rw [ByteDecoder.next] at h
    simp only [Option.some.injEq, Prod.mk.injEq] at h
    obtain ⟨h1, -⟩ := h
    exact decodeLoop_ok_valid conv isLead cpg dcf hwf 7 [b] iter c h1
  | none =>
    cases iter with
    | nil => simp [ByteDecoder.next] at h
    | cons b iter2 =>
      rw [ByteDecoder.next] at h
      simp only [Option.some.injEq, Prod.mk.injEq] at h
      obtain ⟨h1, -⟩ := h
      exact decodeLoop_ok_valid conv isLead cpg dcf hwf 7 [b] iter2 c h1

/-- C9 witness: a well-formed capability mapping every run to the single
unit 65 = `A`. -/
theorem decoder_ok_items_are_scalar_values_witness :
    (65 : Nat) < 0x110000 ∧ ((65 : Nat) < 0xD800 ∨ (0xDFFF : Nat) < 65) := by
  refine decoder_ok_items_are_scalar_values (fun _ _ => [65]) (fun _ _ => false)
    (ByteDecoder.new [7] 0 0) (ByteDecoder.new [] 0 0) 65 ⟨?_, ?_⟩ (by decide)
  · intro run u h
    simp only [List.cons.injEq] at h
    obtain ⟨rfl, -⟩ := h
    decide
  · intro run u v h
    simp at h

/-- A nonempty list is its first element (via `getD`) followed by its
tail. -/
theorem list_eq_getD_cons (l : List Nat) (h : l ≠ []) : l = l.getD 0 0 :: l.drop 1 := by
  cases l with
  | nil => exact absurd rfl h
  | cons a t => rfl

/-- Unfolding `Utf8Encoder.collect` one step when `next` yields. -/
theorem Utf8Encoder_collect_succ_some (n : Nat) (st st2 : Utf8Encoder) (b : Nat)
    (h : Utf8Encoder.next st = some (b, st2)) :
    Utf8Encoder.collect (n + 1) st = b :: Utf8Encoder.collect n st2 := by
  simp only [Utf8Encoder.collect, h]

/-- Unfolding `Utf8Encoder.collect` one step at end of stream. -/
theorem Utf8Encoder_collect_succ_none (n : Nat) (st : Utf8Encoder)
    (h : Utf8Encoder.next st = none) :
    Utf8Encoder.collect (n + 1) st = [] := by
  simp only [Utf8Encoder.collect, h]

/-- The head (via `getD`) of an append with a nonempty left part. -/
theorem getD_zero_append (l l2 : List Nat) (h : l ≠ []) :
    (l ++ l2).getD 0 0 = l.getD 0 0 := by
  cases l with
  | nil => exact absurd rfl h
  | cons a t => rfl

/-- Running `Utf8Encoder.collect` with enough fuel on any state satisfying
the buffer invariant yields the still-buffered bytes followed by the
UTF-8 encoding of every remaining upstream char. -/
theorem utf8_collect_spec :
    ∀ (n : Nat) (st : Utf8Encoder), st.buffer.length = 4 → st.buffer_size ≤ 4 →
      (st.buffer_size ≠ 0 → st.buffer_index < st.buffer_size) →
      st.buffer_size - st.buffer_index + 4 * st.iter.length + 1 ≤ n →
      Utf8Encoder.collect n st =
        (st.buffer.take st.buffer_size).drop st.buffer_index ++
          st.iter.flatMap utf8Bytes := by
  intro n
  induction n with
  | zero =>
    intro st _ _ _ hf
    omega
  | succ n ih =>
    intro st hlen hsz hidx hf
    obtain ⟨it, bi, bs, bb⟩ := st
    simp only at hlen hsz hidx hf ⊢
    by_cases hs : bs = 0
    · subst hs
      rcases it with _ | ⟨c, rest⟩
      · rw [Utf8Encoder_collect_succ_none n _ (by rw [Utf8Encoder.next]; simp)]
        simp
      · have hb := utf8Bytes_length c
        simp only [List.length_cons] at hf
        by_cases h1 : (utf8Bytes c).length = 1
        · obtain ⟨x, hx⟩ := List.length_eq_one.mp h1
          rw [Utf8Encoder_collect_succ_some n _ _ _ (Utf8Encoder_next_one c rest bi bb h1)]
          have hih := ih ⟨rest, bi, 0, utf8Bytes c ++ bb.drop 1⟩
            (by show (utf8Bytes c ++ bb.drop 1).length = 4
                rw [List.length_append, List.length_drop, hlen, h1])
            (Nat.zero_le 4) (fun hne => absurd rfl hne)
            (by show 0 - bi + 4 * rest.length + 1 ≤ n
                omega)
          simp only at hih
          rw [hih]
          simp [hx]
        · rw [Utf8Encoder_collect_succ_some n _ _ _ (Utf8Encoder_next_multi c rest bi bb h1)]
          have hne : utf8Bytes c ≠ [] := by
            intro hnil
            rw [hnil] at hb
            simp at hb
          have hih := ih ⟨rest, 1, (utf8Bytes c).length,
              utf8Bytes c ++ bb.drop (utf8Bytes c).length⟩
            (by show (utf8Bytes c ++ bb.drop (utf8Bytes c).length).length = 4
                rw [List.length_append, List.length_drop, hlen]
                omega)
            (by show (utf8Bytes c).length ≤ 4
                omega)
            (fun _ => by
              show 1 < (utf8Bytes c).length
              omega)
            (by show (utf8Bytes c).length - 1 + 4 * rest.length + 1 ≤ n
                omega)
          simp only at hih
          rw [hih, List.take_left, getD_zero_append _ _ hne]
          simp only [List.take_zero, List.drop_nil, List.nil_append, List.flatMap_cons]
          rw [← List.cons_append]
          congr 1
          exact (list_eq_getD_cons (utf8Bytes c) hne).symm
    · have hi := hidx hs
      by_cases hend : bs ≤ bi + 1
      · have hd := Utf8Encoder_next_drain it bi bs bb hs
        rw [if_pos hend] at hd
        rw [Utf8Encoder_collect_succ_some n _ _ _ hd]
        have hih := ih ⟨it, bi + 1, 0, bb⟩ hlen (Nat.zero_le 4) (fun hne => absurd rfl hne)
          (by show 0 - (bi + 1) + 4 * it.length + 1 ≤ n
              omega)
        simp only at hih
        rw [hih]
        simp only [List.take_zero, List.drop_nil, List.nil_append]
        have hbs : bs = bi + 1 := by omega
        subst hbs
        have hlt : bi < (bb.take (bi + 1)).length := by
          simp only [List.length_take]
          omega
        rw [List.drop_eq_getElem_cons hlt]
        have hd2 : (bb.take (bi + 1)).drop (bi + 1) = [] := by
          apply List.drop_eq_nil_of_le
          simp only [List.length_take]
          omega
        rw [hd2]
        rw [List.getD_eq_getElem bb 0 (by omega)]
        simp [List.getElem_take]
      · have hd := Utf8Encoder_next_drain it bi bs bb hs
        rw [if_neg hend] at hd
        rw [Utf8Encoder_collect_succ_some n _ _ _ hd]
        have hih := ih ⟨it, bi + 1, bs, bb⟩ hlen hsz
          (fun _ => by
            show bi + 1 < bs
            omega)
          (by show bs - (bi + 1) + 4 * it.length + 1 ≤ n
              omega)
        simp only at hih
        rw [hih]
        have hlt : bi < (bb.take bs).length := by
          simp only [List.length_take]
          omega
        rw [List.drop_eq_getElem_cons hlt]
        rw [List.getD_eq_getElem bb 0 (by omega)]
        simp [List.getElem_take]

/-- C8: the UTF-8 fallback encoder, run to exhaustion on any finite char
stream, yields exactly the concatenation of the canonical UTF-8 byte
sequences of its scalar values (each 1–4 bytes long, and the encoder
never fails — `next` is total and only returns `none` at end of stream);
in particular encoding `月` (U+6708) yields `E6 9C 88`. -/
theorem utf8_encoder_encodes_canonically :
    (∀ chars : List Nat,
      Utf8Encoder.collect (4 * chars.length + 1) (Utf8Encoder.new chars) =
        chars.flatMap utf8Bytes) ∧
    (∀ c : Nat, 1 ≤ (utf8Bytes c).length ∧ (utf8Bytes c).length ≤ 4) ∧
    Utf8Encoder.collect 4 (Utf8Encoder.new [0x6708]) = [0xE6, 0x9C, 0x88] := by
  refine ⟨?_, utf8Bytes_length, by decide⟩
  intro chars
  have h := utf8_collect_spec (4 * chars.length + 1) (Utf8Encoder.new chars) rfl
    (Nat.zero_le 4) (fun hne => absurd rfl hne) (by simp [Utf8Encoder.new])
  simpa [Utf8Encoder.new] using h

end TargetEncoding
